import Mathlib

/-!
Verification development for the SDL_Console scrollback console
(src/SDL_console.cpp).  The C++ core is shallowly embedded: each C++
function relevant to the checked properties is translated into an
executable Lean definition operating on explicit state values, and the
properties are proved as theorems about those definitions.

Conventions:
* `std::u32string` text is modelled as `List Char` (one element per code
  point).
* C++ `int` values that can only hold non-negative quantities on the
  inputs under consideration (indices, widths) are modelled as `Nat`;
  values that the code can drive negative (`scroll_value`, `num_lines`,
  pixel coordinates) are modelled as `Int`.
* Deques are modelled as lists, front first.
-/

namespace SDLConsole

/-! ## LineWrapper: `split_entry_text` (src/SDL_console.cpp:2471-2531)

The C++ scan keeps `delim_idx` (last whitespace index, 0 = sentinel for
"none seen"), `start_idx` (current segment start) and `curr_idx` (scan
cursor), accumulating closed `Segment{start, end}` ranges (both ends
inclusive).  After the loop any remaining text is flushed, and each
segment with `end >= start` becomes one wrapped line
`substr(start, end - start + 1)`. -/

/-- One `Segment{size_t start; size_t end;}` of `split_entry_text`;
`stop` is the C++ `end` field (inclusive). -/
structure Seg where
  start : Nat
  stop : Nat
deriving DecidableEq, Repr

/-- The loop state of the `split_entry_text` scan. -/
structure ScanState where
  delim : Nat
  start : Nat
  curr : Nat
  segs : List Seg
deriving DecidableEq, Repr

/-- Mirrors `ch == U'\n' || ch == U'\r'`. -/
def isBreakChar (ch : Char) : Bool := ch = '\n' || ch = '\r'

/-- Mirrors `ch == U' ' || ch == U'\t'`. -/
def isSpaceChar (ch : Char) : Bool := ch = ' ' || ch = '\t'

/-- One iteration of the `for (auto& ch : text)` loop of
`split_entry_text` (src/SDL_console.cpp:2492-2518), including the final
`curr_idx++`.  The C++ indices are `int`s that never go negative, so
they are modelled as `Nat`; `curr - start` only ever underflows where
the C++ difference would be negative, which cannot happen since
`start ≤ curr` holds at every loop head. -/
def splitStep (cw vw : Nat) (st : ScanState) (ch : Char) : ScanState :=
  if isBreakChar ch then
    { delim := 0, start := st.curr + 1, curr := st.curr + 1
      segs := if st.start < st.curr then st.segs ++ [⟨st.start, st.curr⟩] else st.segs }
  else if isSpaceChar ch then
    { st with delim := st.curr, curr := st.curr + 1 }
  else if vw ≤ (st.curr - st.start + 1) * cw then
    if st.delim ≠ 0 then
      { delim := 0, start := st.delim + 1, curr := st.curr + 1
        segs := st.segs ++ [⟨st.start, st.delim⟩] }
    else
      { delim := st.delim, start := st.curr + 1, curr := st.curr + 1
        segs := st.segs ++ [⟨st.start, st.curr⟩] }
  else
    { st with curr := st.curr + 1 }

/-- Initial scan state: `delim_idx = start_idx = curr_idx = 0`, no segments. -/
def initScan : ScanState := ⟨0, 0, 0, []⟩

/-- The whole character loop of `split_entry_text`. -/
def splitScan (cw vw : Nat) (text : List Char) : ScanState :=
  text.foldl (splitStep cw vw) initScan

/-- Segment list after the loop plus the trailing flush
`if (start_idx < text.size()) segments.emplace_back(start_idx, text.size() - 1)`. -/
def splitSegs (cw vw : Nat) (text : List Char) : List Seg :=
  let st := splitScan cw vw text
  if st.start < text.length then st.segs ++ [⟨st.start, text.length - 1⟩] else st.segs

/-- The wrapped-line ranges `split_entry_text` stores into the entry:
the scanned segments filtered by the final `if (seg.end >= seg.start)`
guard (src/SDL_console.cpp:2525-2530). -/
def split_entry_text (cw vw : Nat) (text : List Char) : List Seg :=
  (splitSegs cw vw text).filter (fun s => s.start ≤ s.stop)

/-- The view a segment denotes:
`u32string_view(text).substr(seg.start, seg.end - seg.start + 1)`. -/
def segView (text : List Char) (s : Seg) : List Char :=
  (text.drop s.start).take (s.stop - s.start + 1)

/-- The wrapped-line texts of an entry (`entry.add_line(view, …)` per
retained segment). -/
def entryLines (cw vw : Nat) (text : List Char) : List (List Char) :=
  (split_entry_text cw vw text).map (segView text)

/-- Number of wrapped lines an entry gets (`entry.size` after
`split_entry_text`). -/
def entrySize (cw vw : Nat) (text : List Char) : Nat :=
  (split_entry_text cw vw text).length

/-- Well-formedness of a scan state over `text` after processing
`st.curr` characters: the segment start never passes the cursor, the
cursor never passes the end of the text, a non-zero `delim` points at a
whitespace character inside the current segment (index 0 doubles as the
"none seen" sentinel), and the emitted segments are well-formed,
strictly ordered, non-overlapping, and all end before the current
segment start. -/
def ScanInv (text : List Char) (st : ScanState) : Prop :=
  st.start ≤ st.curr ∧
  st.curr ≤ text.length ∧
  (st.delim = 0 ∨ (st.start ≤ st.delim ∧ st.delim < st.curr ∧
    ∃ c, text[st.delim]? = some c ∧ isSpaceChar c = true)) ∧
  (∀ s ∈ st.segs, s.start ≤ s.stop) ∧
  List.Chain' (fun a b => a.stop < b.start) st.segs ∧
  (∀ s ∈ st.segs.getLast?, s.stop < st.start)

/-- The prefix-reconstruction invariant of the scan over a text free of
line breaks: the views of the segments emitted so far, concatenated with
the not-yet-closed tail of the current segment, spell exactly the
processed prefix of the text. -/
def ConcatInv (text : List Char) (st : ScanState) : Prop :=
  (st.segs.map (segView text)).flatten ++ (text.take st.curr).drop st.start =
    text.take st.curr

example : split_entry_text 1 10 "hello world foo".toList = [⟨0, 5⟩, ⟨6, 14⟩] := by decide
example : entryLines 1 10 "hello world foo".toList = ["hello ".toList, "world foo".toList] := by
  decide
example : split_entry_text 1 3 " abcd".toList = [⟨0, 2⟩, ⟨3, 4⟩] := by decide
example : split_entry_text 1 2 "aaaa".toList = [⟨0, 1⟩, ⟨2, 3⟩] := by decide
example : entrySize 1 2 "aaaaaa".toList = 3 := by decide
example : split_entry_text 1 10 "".toList = [] := by decide
example : entryLines 1 10 "ab\ncd".toList = ["ab\n".toList, "cd".toList] := by decide
example : entryLines 1 10 "\na".toList = ["a".toList] := by decide

/-! ## LogScreen: scrollback store and scroll position
(src/SDL_console.cpp:1702-2000)

`LogScreen` keeps `std::deque<LogEntry> entries` (front = newest),
`int num_lines`, `int max_lines`, `int scroll_value`.  Only the fields
the checked claims touch are modelled; an entry is its original text
plus its cached wrapped-line count `size`.  The wrapped lines themselves
are recomputed from the text by `split_entry_text`, exactly as in the
C++ code. -/

/-- A `LogEntry`: original text plus `size` (number of wrapped lines). -/
structure LogEntryM where
  text : List Char
  size : Nat
deriving DecidableEq, Repr

/-- The `LogScreen` state relevant to the scrollback/scroll claims.
`cw`/`vw` (font char width and adjusted viewport width) are passed to
each operation rather than stored, mirroring `widget.font->char_width`
and `widget.viewport.w`. -/
structure LogScreenM where
  entries : List LogEntryM
  numLines : Int
  maxLines : Int
  scrollValue : Int
deriving DecidableEq, Repr

/-- A fresh `LogScreen`: no entries, `num_lines = 0`, `scroll_value = 0`. -/
def initLogScreen (maxLines : Int) : LogScreenM :=
  ⟨[], 0, maxLines, 0⟩

/-- Model of `LogScreen::create_entry` (src/SDL_console.cpp:1987-2000):
`emplace_front` a fresh entry (size 0, no lines yet), then
`if (num_lines >= max_lines) { num_lines -= entries.back().size; entries.pop_back(); }`.
Note the eviction is a single `if`, removing at most one whole entry
from the back (oldest) end per call. -/
def create_entry (st : LogScreenM) (text : List Char) : LogScreenM :=
  let entries1 := (⟨text, 0⟩ : LogEntryM) :: st.entries
  if st.maxLines ≤ st.numLines then
    { st with entries := entries1.dropLast
              numLines := st.numLines - (((entries1.getLast?).map LogEntryM.size).getD 0 : Nat) }
  else
    { st with entries := entries1 }

/-- Model of `LogScreen::update_entry` (src/SDL_console.cpp:1974-1981) applied to
the front entry: re-split its text and add `entry.size` to `num_lines`.
(The C++ caller holds a reference to `entries.front()`; if the deque is
empty that reference does not exist — undefined behaviour — so the model
leaves the state unchanged in that unreachable case.) -/
def update_entry (cw vw : Nat) (st : LogScreenM) : LogScreenM :=
  match st.entries with
  | [] => st
  | e :: rest =>
      let sz := entrySize cw vw e.text
      { st with entries := ⟨e.text, sz⟩ :: rest, numLines := st.numLines + (sz : Int) }

/-- One append (`new_output_line` / the entry part of `new_input_line`,
src/SDL_console.cpp:1950-1972): `create_entry` followed by
`update_entry` on the new entry. -/
def appendLine (cw vw : Nat) (st : LogScreenM) (text : List Char) : LogScreenM :=
  update_entry cw vw (create_entry st text)

/-- A sequence of appends. -/
def appendAll (cw vw : Nat) (st : LogScreenM) (texts : List (List Char)) : LogScreenM :=
  texts.foldl (appendLine cw vw) st

/-- Sum of the retained entries' wrapped-line counts. -/
def linesSum (es : List LogEntryM) : Int :=
  ((es.map LogEntryM.size).sum : Nat)

/-- Mirrors `enum class ScrollDirection`. -/
inductive ScrollDir
  | up
  | down
  | page_up
  | page_down
deriving DecidableEq, Repr

/-- The delta `LogScreen::scroll(ScrollDirection)` applies before
clamping; `rows` is the viewport row count `rows()`. -/
def scrollDelta (rows : Int) (dir : ScrollDir) : Int :=
  match dir with
  | .up => 1
  | .down => -1
  | .page_up => rows.tdiv 2
  | .page_down => -(rows.tdiv 2)

/-- Model of `LogScreen::scroll(ScrollDirection)` (src/SDL_console.cpp:1875-1894):
apply the delta, then
`scroll_value = std::min(std::max(0, scroll_value), num_lines - 1)`.
The trailing `set_scroll_value` only forwards the value to the scrollbar
widget (render-layer geometry, out of scope per the spec). -/
def scroll (rows : Int) (st : LogScreenM) (dir : ScrollDir) : LogScreenM :=
  { st with scrollValue := min (max 0 (st.scrollValue + scrollDelta rows dir)) (st.numLines - 1) }

/-- Model of `LogScreen::clear` (src/SDL_console.cpp:1834-1840): drop all
entries, zero `num_lines`, reset the scroll value to 0. -/
def clearScreen (st : LogScreenM) : LogScreenM :=
  { st with entries := [], numLines := 0, scrollValue := 0 }

/-- The entry re-wrapping loop of `LogScreen::on_resize`
(src/SDL_console.cpp:1896-1910): `num_lines = 0`, then `update_entry`
on every entry in order with the new viewport width.  The final
`num_lines` is the sum of the recomputed sizes; `scroll_value` is not
touched. -/
def rewrapEntries (cw vw : Nat) : List LogEntryM → List LogEntryM
  | [] => []
  | e :: rest => ⟨e.text, entrySize cw vw e.text⟩ :: rewrapEntries cw vw rest

/-- Model of `LogScreen::on_resize`, restricted to the scrollback data
(viewport/scrollbar geometry is render-layer). -/
def on_resize (cw vw : Nat) (st : LogScreenM) : LogScreenM :=
  let es := rewrapEntries cw vw st.entries
  { st with entries := es, numLines := linesSum es }

example :
    (appendAll 1 10 (initLogScreen 3)
      ["a".toList, "b".toList, "c".toList, "d".toList]).entries.map LogEntryM.text =
      ["d".toList, "c".toList, "b".toList] := by decide
example :
    (appendAll 1 10 (initLogScreen 3)
      ["a".toList, "b".toList, "c".toList, "d".toList]).numLines = 3 := by decide
example : (appendLine 1 2 (initLogScreen 1) "aaaa".toList).numLines = 2 := by decide

example :
    (appendLine 1 2
      (scroll 0 (scroll 0 (appendLine 1 2 (initLogScreen 3) "aaaaaa".toList) .up) .up)
      "b".toList).scrollValue = 2 := by decide
example :
    (appendLine 1 2
      (scroll 0 (scroll 0 (appendLine 1 2 (initLogScreen 3) "aaaaaa".toList) .up) .up)
      "b".toList).numLines = 1 := by decide
example : (scroll 0 (initLogScreen 3) .up).scrollValue = -1 := by decide

/-! ## InputLineWaiter (src/SDL_console.cpp:1640-1700)

The blocking rendezvous: a queue of submitted lines and an
`std::atomic<bool> completed` flag.  `push` appends and sets the flag;
`shutdown` sets the flag without pushing; `wait_get` pops a line, or
blocks on `completed.wait(false)` when the queue is empty and the flag
is unset.  The primitive is modelled sequentially: each call is one
atomic step on the state, and an execution that would park the calling
thread on the flag is reported as `blocked` with the state unchanged. -/

/-- Result of one `wait_get` call: the call parks on
`completed.wait(false)` (`blocked`), returns 0 with the caller's buffer
unmodified (`sentinel`), or returns the popped line (`got`). -/
inductive WaitOutcome
  | blocked
  | sentinel
  | got (line : List Char)
deriving DecidableEq, Repr

/-- The `InputLineWaiter` state: `input_q` and `completed`. -/
structure InputLineWaiterM where
  inputQ : List (List Char)
  completed : Bool
deriving DecidableEq, Repr

/-- Model of `InputLineWaiter::push` (src/SDL_console.cpp:1652-1658): enqueue,
set `completed`, notify. -/
def ilwPush (s : InputLineWaiterM) (line : List Char) : InputLineWaiterM :=
  { inputQ := s.inputQ ++ [line], completed := true }

/-- Model of `InputLineWaiter::shutdown` (src/SDL_console.cpp:1664-1673): set
`completed` and notify, without pushing data. -/
def ilwShutdown (s : InputLineWaiterM) : InputLineWaiterM :=
  { s with completed := true }

/-- Model of `InputLineWaiter::wait_get` (src/SDL_console.cpp:1676-1694).  With a
non-empty queue it pops the front line.  With an empty queue it waits on
`completed`; if the flag is already set the wait returns at once, the
code then does `completed = false` and, finding the queue still empty,
returns 0 with the buffer untouched.  If the flag is unset the call
blocks. -/
def wait_get (s : InputLineWaiterM) : WaitOutcome × InputLineWaiterM :=
  match s.inputQ with
  | [] =>
      if s.completed then (.sentinel, ⟨[], false⟩)
      else (.blocked, s)
  | l :: rest => (.got l, { s with inputQ := rest })

example : (wait_get (ilwShutdown ⟨[], false⟩)).1 = .sentinel := by decide
example : (wait_get (wait_get (ilwShutdown ⟨[], false⟩)).2).1 = .blocked := by decide
example : (wait_get (ilwPush ⟨[], false⟩ "x".toList)).1 = .got "x".toList := by decide

/-! ## Clipboard: `LogScreen::copy_to_clipboard`
(src/SDL_console.cpp:2003-2029)

The string handed to `SDL_SetClipboardText` is built from the
highlighted rectangles: entries are walked oldest-first
(`entries.rbegin()`), within an entry the wrapped lines top-to-bottom,
and for each line every rect (the rect list having been reversed first).
A line contributes when some rect sits on its row (`rect.y ==
line.coord.y`) and starts left of its end (`col < line.text.size()`);
before every contribution except the first a `'\n'` separator is
appended. -/

/-- A pixel rectangle as used by the highlight/clipboard code.  The
selection rectangles fed to `copy_to_clipboard` lie inside the viewport,
so `x`/`w` are non-negative and modelled as `Nat` (the C++ code divides
them as `size_t`); `y` stays `Int`. -/
structure ClipRect where
  x : Nat
  y : Int
  w : Nat
deriving DecidableEq, Repr

/-- One wrapped display line as the clipboard walk sees it: its text and
the `line.coord.y` recorded by the renderer. -/
structure ClipLine where
  text : List Char
  y : Int
deriving DecidableEq, Repr

/-- The contribution of one (line, rect) pair, if any:
`col = rect.x / char_width` (`get_column`), the guard
`rect.y == line.coord.y && col < line.text.size()`, and the substring
`line.text.substr(col, min(extent - col, size - col))` with
`extent = rect.w / char_width + col` (`column_extent`). -/
def clipPiece (cw : Nat) (line : ClipLine) (rect : ClipRect) : Option (List Char) :=
  let col := rect.x / cw
  if rect.y = line.y ∧ col < line.text.length then
    some ((line.text.drop col).take (min (rect.w / cw) (line.text.length - col)))
  else
    none

/-- Accumulate one contribution onto `ret`:
`if (!ret.empty()) ret += sep; ret += piece`. -/
def clipStep (ret : List Char) : Option (List Char) → List Char
  | none => ret
  | some piece => (if ret.isEmpty then ret else ret ++ ['\n']) ++ piece

/-- Model of `LogScreen::copy_to_clipboard`, as a function from the walked data
(entries oldest-last as stored, each entry its wrapped lines in order,
and the highlight rects in `get_highlighted_rects` order) to the
clipboard string. -/
def copy_to_clipboard (cw : Nat) (entries : List (List ClipLine))
    (rects : List ClipRect) : List Char :=
  entries.reverse.foldl
    (fun ret entry =>
      entry.foldl
        (fun ret line =>
          rects.reverse.foldl (fun ret rect => clipStep ret (clipPiece cw line rect)) ret)
        ret)
    []

example :
    copy_to_clipboard 1
      [[⟨"ab".toList, 0⟩, ⟨"cd".toList, 10⟩]]
      [⟨0, 0, 2⟩, ⟨0, 10, 2⟩] = "ab\ncd".toList := by decide
example :
    copy_to_clipboard 1 [[⟨"hello".toList, 0⟩]] [⟨0, 0, 5⟩] = "hello".toList := by decide

/-- All contributions of the clipboard walk, in walk order (entries
oldest-first, lines top-to-bottom, rects in reversed order). -/
def clipPieces (cw : Nat) (entries : List (List ClipLine)) (rects : List ClipRect) :
    List (List Char) :=
  (entries.reverse.map
    (fun entry =>
      (entry.map (fun line => (rects.reverse.map (clipPiece cw line)).filterMap id)).flatten)).flatten

/-- Join a list of strings with a single `'\n'` before every element
after the first. -/
def joinSep : List (List Char) → List Char
  | [] => []
  | p :: rest => p ++ (rest.map (fun q => '\n' :: q)).flatten

example :
    clipPieces 1 [[⟨"ab".toList, 0⟩, ⟨"cd".toList, 10⟩]] [⟨0, 0, 2⟩, ⟨0, 10, 2⟩] =
      ["ab".toList, "cd".toList] := by decide
example : joinSep ["ab".toList, "cd".toList] = "ab\ncd".toList := by decide

/-! ## Selection geometry: `LogScreen::get_highlighted_rects`
(src/SDL_console.cpp:2125-2171)

Pure pixel geometry from the drag endpoints `mouse_motion_start` /
`mouse_motion_end`.  `snap_to_min`/`snap_to_max`
(src/SDL_console.cpp:308-316) round a coordinate down/up to a grid
multiple via `std::floor`/`std::ceil` on `float`; for the coordinate
magnitudes of a window (well below 2^24) the float arithmetic is exact,
so they are modelled with exact integer floor/ceiling division
(`Int.fdiv`). -/

/-- A pixel point (`SDL_Point`). -/
structure PointM where
  x : Int
  y : Int
deriving DecidableEq, Repr

/-- A pixel rectangle (`SDL_Rect`). -/
structure RectM where
  x : Int
  y : Int
  w : Int
  h : Int
deriving DecidableEq, Repr

/-- Model of `snap_to_min`: `floor(value / grid) * grid`. -/
def snap_to_min (value grid : Int) : Int :=
  value.fdiv grid * grid

/-- Model of `snap_to_max`: `ceil(value / grid) * grid`. -/
def snap_to_max (value grid : Int) : Int :=
  -((-value).fdiv grid) * grid

/-- Ceiling division for non-negative divisors, used for
`int rows = std::ceil((float)(bottom - top) / line_height)`. -/
def ceilDivI (a b : Int) : Int :=
  -((-a).fdiv b)

/-- Overwrite the width of the last rectangle:
`selected_rects.back().w = right`. -/
def setLastW (w : Int) : List RectM → List RectM
  | [] => []
  | [r] => [{ r with w := w }]
  | r :: s :: rest => r :: setLastW w (s :: rest)

/-- Model of `LogScreen::get_highlighted_rects`.  Here `cw` is `font->char_width`,
`lh` is `font->line_height_with_spacing()`, `vpw` is `viewport.w`;
`selStart`/`selEnd` are the translated drag endpoints.  `std::minmax`
with the `y` comparator yields `(selEnd, selStart)` exactly when
`selEnd.y < selStart.y` (ties keep the argument order). -/
def get_highlighted_rects (cw lh vpw : Int) (selStart selEnd : PointM) : List RectM :=
  let topPoint := if selEnd.y < selStart.y then selEnd else selStart
  let bottomPoint := if selEnd.y < selStart.y then selStart else selEnd
  let top := snap_to_min topPoint.y lh
  let bottom := snap_to_max bottomPoint.y lh
  if bottomPoint.y - topPoint.y ≤ lh then
    let left := snap_to_min (min selStart.x selEnd.x) cw
    let right := snap_to_max (max selStart.x selEnd.x) cw
    [⟨left, top, right - left, lh⟩]
  else
    let left := snap_to_min topPoint.x cw
    let right := snap_to_max bottomPoint.x cw
    let rows := ceilDivI (bottom - top) lh
    let base : List RectM :=
      ⟨left, top, vpw, lh⟩ ::
        (List.range (rows - 1).toNat).map
          (fun (i : Nat) => ⟨0, top + ((i : Int) + 1) * lh, vpw, lh⟩)
    setLastW right base

example :
    get_highlighted_rects 2 10 100 ⟨5, 3⟩ ⟨11, 9⟩ = [⟨4, 0, 8, 10⟩] := by decide
example :
    get_highlighted_rects 2 10 100 ⟨5, 3⟩ ⟨11, 27⟩ =
      [⟨4, 0, 100, 10⟩, ⟨0, 10, 100, 10⟩, ⟨0, 20, 12, 10⟩] := by decide

/-! ## ExternalEventWaiter (src/SDL_console.cpp:2346-2444)

Two producer queues (`sdl`, `api`) sharing one atomic `notifier` and
one `State` (`active | shutdown | inactive`).  `EventQueue::push` drops
silently when the state is not `active`, otherwise enqueues and sets the
notifier.  `wait_for_events` blocks on the notifier, then clears it
while holding both queue mutexes.  Each of these critical sections is
one atomic step in the model; an execution is a serialization of such
steps, which is exactly what the two mutexes enforce. -/

/-- Mirrors `enum class State { active, shutdown, inactive }`. -/
inductive WaiterState
  | active
  | shutdown
  | inactive
deriving DecidableEq, Repr

/-- The `ExternalEventWaiter` state: the two queues, the shared
notifier, and the liveness state.  `α` is the SDL event payload type,
`β` the API task payload type. -/
structure EventWaiterM (α β : Type) where
  sdlQ : List α
  apiQ : List β
  notifier : Bool
  state : WaiterState
deriving DecidableEq, Repr

/-- Model of `ExternalEventWaiter::EventQueue::push` (src/SDL_console.cpp:2359-2369)
on the SDL queue: under the queue mutex, return (drop) unless `active`,
else enqueue and set the notifier. -/
def pushSdl {α β : Type} (w : EventWaiterM α β) (e : α) : EventWaiterM α β :=
  if w.state ≠ WaiterState.active then w
  else { w with sdlQ := w.sdlQ ++ [e], notifier := true }

/-- Model of `EventQueue::push` on the API task queue. -/
def pushApi {α β : Type} (w : EventWaiterM α β) (t : β) : EventWaiterM α β :=
  if w.state ≠ WaiterState.active then w
  else { w with apiQ := w.apiQ ++ [t], notifier := true }

/-- The critical section of `ExternalEventWaiter::wait_for_events`
(src/SDL_console.cpp:2398-2406): with both queue mutexes held,
`notifier = false`.  The queues are untouched. -/
def clearNotifier {α β : Type} (w : EventWaiterM α β) : EventWaiterM α β :=
  { w with notifier := false }

/-- An atomic producer/owner step racing with the notifier clear. -/
inductive WaiterAct (α β : Type)
  | pushSdl (e : α)
  | pushApi (t : β)
  | clearNote
deriving DecidableEq, Repr

/-- Apply one atomic step. -/
def waiterStep {α β : Type} (w : EventWaiterM α β) : WaiterAct α β → EventWaiterM α β
  | .pushSdl e => pushSdl w e
  | .pushApi t => pushApi w t
  | .clearNote => clearNotifier w

/-- Run a serialized interleaving of pushes and notifier clears. -/
def waiterRun {α β : Type} (w : EventWaiterM α β) (acts : List (WaiterAct α β)) :
    EventWaiterM α β :=
  acts.foldl waiterStep w

/-- The SDL events pushed by an action sequence. -/
def sdlItems {α β : Type} (acts : List (WaiterAct α β)) : List α :=
  acts.filterMap (fun a => match a with | .pushSdl e => some e | _ => none)

/-- The API tasks pushed by an action sequence. -/
def apiItems {α β : Type} (acts : List (WaiterAct α β)) : List β :=
  acts.filterMap (fun a => match a with | .pushApi t => some t | _ => none)

example :
    (waiterRun (⟨[], [], false, .active⟩ : EventWaiterM Nat Nat)
      [.pushSdl 1, .clearNote, .pushSdl 2]).sdlQ = [1, 2] := by decide
example :
    (waiterRun (⟨[], [], false, .active⟩ : EventWaiterM Nat Nat)
      [.pushSdl 1, .clearNote, .pushSdl 2]).notifier = true := by decide
example :
    pushSdl (⟨[], [], false, .shutdown⟩ : EventWaiterM Nat Nat) 7 =
      ⟨[], [], false, .shutdown⟩ := by decide

/-! ## Prompt (src/SDL_console.cpp:1151-1376)

The prompt keeps a `std::deque<std::u32string> history` (the current
input line is `history[history_idx]`, pointed to by `input`) and a
`size_t cursor` into the input portion.  The editing operations are
`add_input`, `erase_input`, `move_cursor_left`, `move_cursor_right`,
`set_input_from_history`, and the Home/End branches of `on_key_down`. -/

/-- The prompt state the cursor claims are about. -/
structure PromptM where
  history : List (List Char)
  historyIdx : Nat
  cursor : Nat
deriving DecidableEq, Repr

/-- The currently selected input line `*input = history[history_idx]`. -/
def promptInput (p : PromptM) : List Char :=
  p.history.getD p.historyIdx []

/-- Model of `Prompt::add_input` (src/SDL_console.cpp:1245-1256): append when the
cursor sits at the end, otherwise `input->insert(cursor, str)`; then
`cursor += str.length()`. -/
def add_input (p : PromptM) (str : List Char) : PromptM :=
  { p with
    history := p.history.set p.historyIdx
      (if p.cursor = (promptInput p).length then promptInput p ++ str
       else (promptInput p).take p.cursor ++ str ++ (promptInput p).drop p.cursor)
    cursor := p.cursor + str.length }

/-- Model of `Prompt::erase_input` (src/SDL_console.cpp:1258-1271): no-op when
`cursor == 0 || input->length() == 0`; otherwise `pop_back` at the end
or `input->erase(cursor, 1)` (dropping the character at the cursor
index), then `cursor -= 1`. -/
def erase_input (p : PromptM) : PromptM :=
  if p.cursor = 0 ∨ (promptInput p).length = 0 then p
  else
    { p with
      history := p.history.set p.historyIdx
        (if (promptInput p).length = p.cursor then (promptInput p).dropLast
         else (promptInput p).take p.cursor ++ (promptInput p).drop (p.cursor + 1))
      cursor := p.cursor - 1 }

/-- Model of `Prompt::move_cursor_left` (src/SDL_console.cpp:1273-1278). -/
def move_cursor_left (p : PromptM) : PromptM :=
  if 0 < p.cursor then { p with cursor := p.cursor - 1 } else p

/-- Model of `Prompt::move_cursor_right` (src/SDL_console.cpp:1280-1285). -/
def move_cursor_right (p : PromptM) : PromptM :=
  if p.cursor < (promptInput p).length then { p with cursor := p.cursor + 1 } else p

/-- Model of `Prompt::set_input_from_history` (src/SDL_console.cpp:1224-1243):
move `history_idx` up (towards 0) or down (towards the newest line),
bailing out at either end; the cursor is set to the length of the newly
selected line. -/
def set_input_from_history (p : PromptM) (up : Bool) : PromptM :=
  if up then
    if 0 < p.historyIdx then
      { p with historyIdx := p.historyIdx - 1
               cursor := (p.history.getD (p.historyIdx - 1) []).length }
    else p
  else
    if p.historyIdx < p.history.length - 1 then
      { p with historyIdx := p.historyIdx + 1
               cursor := (p.history.getD (p.historyIdx + 1) []).length }
    else p

/-- The prompt-editing operations named by the cursor claim. -/
inductive PromptOp
  | add (str : List Char)
  | erase
  | left
  | right
  | histUp
  | histDown
  | home
  | toEnd
deriving DecidableEq, Repr

/-- Dispatch one editing operation (`home`/`toEnd` are the `SDLK_HOME`
and `SDLK_END` branches of `Prompt::on_key_down`,
src/SDL_console.cpp:1203-1208). -/
def promptStep (p : PromptM) : PromptOp → PromptM
  | .add s => add_input p s
  | .erase => erase_input p
  | .left => move_cursor_left p
  | .right => move_cursor_right p
  | .histUp => set_input_from_history p true
  | .histDown => set_input_from_history p false
  | .home => { p with cursor := 0 }
  | .toEnd => { p with cursor := (promptInput p).length }

/-- The cursor/index well-formedness invariant: the history index is in
range and the cursor does not pass the end of the selected input line. -/
def PromptInv (p : PromptM) : Prop :=
  p.historyIdx < p.history.length ∧ p.cursor ≤ (promptInput p).length

instance (p : PromptM) : Decidable (PromptInv p) := by
  unfold PromptInv; infer_instance

example : (add_input ⟨[[]], 0, 0⟩ "hi".toList).cursor = 2 := by decide
example : (erase_input (add_input ⟨[[]], 0, 0⟩ "hi".toList)).cursor = 1 := by decide
example : PromptInv ⟨[[]], 0, 0⟩ := by decide

/-! ## Theorems -/

/-! ### C8: pushes are dropped unless the dispatcher is active -/

/-- C8 (confirmed).  Push drop when not active: a push onto either
dispatcher queue while the state is not `Active` leaves the whole state
— queue contents and notifier included — unchanged and reports nothing;
a push while `Active` appends the item to its queue and sets the
notifier (leaving the other queue and the state alone). -/
theorem C8_push_drop_when_not_active {α β : Type} (w : EventWaiterM α β) (e : α) (t : β) :
    (w.state ≠ WaiterState.active → pushSdl w e = w ∧ pushApi w t = w) ∧
    (w.state = WaiterState.active →
      pushSdl w e = { w with sdlQ := w.sdlQ ++ [e], notifier := true } ∧
      pushApi w t = { w with apiQ := w.apiQ ++ [t], notifier := true }) := by
  refine ⟨fun h => ⟨?_, ?_⟩, fun h => ⟨?_, ?_⟩⟩ <;>
    simp [pushSdl, pushApi, h]

/-- Witness for C8 at concrete states: a push in state `shutdown` is a
no-op, a push in state `active` enqueues and sets the notifier. -/
theorem C8_witness :
    pushSdl (⟨[], [], false, .shutdown⟩ : EventWaiterM Nat Nat) 7 = ⟨[], [], false, .shutdown⟩ ∧
    pushSdl (⟨[], [], false, .active⟩ : EventWaiterM Nat Nat) 7 =
      { (⟨[], [], false, .active⟩ : EventWaiterM Nat Nat) with
        sdlQ := [] ++ [7], notifier := true } :=
  ⟨((C8_push_drop_when_not_active ⟨[], [], false, .shutdown⟩ 7 9).1 (by decide)).1,
   ((C8_push_drop_when_not_active ⟨[], [], false, .active⟩ 7 9).2 (by decide)).1⟩

/-! ### C9: no lost wakeups across the two-lock notifier clear -/

/-- Every atomic step of the push/clear race keeps the liveness state. -/
theorem waiterStep_state {α β : Type} (w : EventWaiterM α β) (a : WaiterAct α β) :
    (waiterStep w a).state = w.state := by
  cases a with
  | pushSdl e =>
      simp only [waiterStep, pushSdl]
      by_cases h : w.state = WaiterState.active <;> simp [h]
  | pushApi t =>
      simp only [waiterStep, pushApi]
      by_cases h : w.state = WaiterState.active <;> simp [h]
  | clearNote => rfl

/-- Over a whole serialized interleaving the state is unchanged. -/
theorem waiterRun_state {α β : Type} (w : EventWaiterM α β) (acts : List (WaiterAct α β)) :
    (waiterRun w acts).state = w.state := by
  induction acts generalizing w with
  | nil => rfl
  | cons a rest ih => simpa [waiterRun, List.foldl_cons, waiterStep_state] using ih (waiterStep w a)

/-- While active, an interleaving of pushes and clears appends exactly
the pushed items, in order, to each queue. -/
theorem waiterRun_queues {α β : Type} (w : EventWaiterM α β) (acts : List (WaiterAct α β))
    (h : w.state = WaiterState.active) :
    (waiterRun w acts).sdlQ = w.sdlQ ++ sdlItems acts ∧
    (waiterRun w acts).apiQ = w.apiQ ++ apiItems acts := by
  induction acts generalizing w with
  | nil => simp [waiterRun, sdlItems, apiItems]
  | cons a rest ih =>
      have hstep : (waiterStep w a).state = WaiterState.active := by
        rw [waiterStep_state]; exact h
      obtain ⟨h1, h2⟩ := ih (waiterStep w a) hstep
      cases a with
      | pushSdl e =>
          constructor
          · simpa [waiterRun, waiterStep, pushSdl, h, sdlItems] using h1
          · simpa [waiterRun, waiterStep, pushSdl, h, apiItems] using h2
      | pushApi t =>
          constructor
          · simpa [waiterRun, waiterStep, pushApi, h, sdlItems] using h1
          · simpa [waiterRun, waiterStep, pushApi, h, apiItems] using h2
      | clearNote =>
          constructor
          · simpa [waiterRun, waiterStep, clearNotifier, sdlItems] using h1
          · simpa [waiterRun, waiterStep, clearNotifier, apiItems] using h2

/-- A set notifier survives any clear-free tail of the interleaving. -/
theorem waiterRun_notifier_mono {α β : Type} (w : EventWaiterM α β)
    (acts : List (WaiterAct α β)) (hn : w.notifier = true)
    (hc : ∀ b ∈ acts, b ≠ WaiterAct.clearNote) :
    (waiterRun w acts).notifier = true := by
  induction acts generalizing w with
  | nil => exact hn
  | cons a rest ih =>
      have ha := hc a (by simp)
      have hrest : ∀ b ∈ rest, b ≠ WaiterAct.clearNote := fun b hb => hc b (by simp [hb])
      cases a with
      | pushSdl e =>
          refine ih (waiterStep w (.pushSdl e)) ?_ hrest
          simp only [waiterStep, pushSdl]
          by_cases h : w.state = WaiterState.active <;> simp [h, hn]
      | pushApi t =>
          refine ih (waiterStep w (.pushApi t)) ?_ hrest
          simp only [waiterStep, pushApi]
          by_cases h : w.state = WaiterState.active <;> simp [h, hn]
      | clearNote => exact absurd rfl ha

/-- C9 (confirmed).  No lost wakeups, in the serialized model the two
queue mutexes enforce (each `push` body and the notifier clear of
`wait_for_events` is one atomic step): starting from an `Active` state,
after any interleaving of pushes and notifier clears (i) both queues
hold exactly the prior contents followed by every accepted pushed item
in FIFO order — so a clear never removes an item, and every item pushed
before a clear is visible to the drain that follows it — and (ii) if
some push is not followed by any clear, the notifier is set afterwards,
so the next wait cycle observes it. -/
theorem C9_no_lost_wakeups {α β : Type} (w : EventWaiterM α β) (acts : List (WaiterAct α β))
    (h : w.state = WaiterState.active) :
    (waiterRun w acts).sdlQ = w.sdlQ ++ sdlItems acts ∧
    (waiterRun w acts).apiQ = w.apiQ ++ apiItems acts ∧
    (clearNotifier (waiterRun w acts)).sdlQ = w.sdlQ ++ sdlItems acts ∧
    (clearNotifier (waiterRun w acts)).apiQ = w.apiQ ++ apiItems acts ∧
    (∀ pre a post, acts = pre ++ a :: post → a ≠ WaiterAct.clearNote →
      (∀ b ∈ post, b ≠ WaiterAct.clearNote) → (waiterRun w acts).notifier = true) := by
  obtain ⟨h1, h2⟩ := waiterRun_queues w acts h
  refine ⟨h1, h2, by simpa [clearNotifier] using h1, by simpa [clearNotifier] using h2, ?_⟩
  intro pre a post hacts ha hpost
  subst hacts
  have hsplit : waiterRun w (pre ++ a :: post) =
      waiterRun (waiterStep (waiterRun w pre) a) post := by
    simp [waiterRun, List.foldl_append]
  rw [hsplit]
  have hact : (waiterRun w pre).state = WaiterState.active := by
    rw [waiterRun_state]; exact h
  refine waiterRun_notifier_mono _ post ?_ hpost
  cases a with
  | pushSdl e => simp [waiterStep, pushSdl, hact]
  | pushApi t => simp [waiterStep, pushApi, hact]
  | clearNote => exact absurd rfl ha

/-- Witness for C9: a concrete interleaving push–clear–push leaves both
accepted items in the queue and the notifier set. -/
theorem C9_witness :
    (waiterRun (⟨[], [], false, .active⟩ : EventWaiterM Nat Nat)
        [.pushSdl 1, .clearNote, .pushSdl 2]).sdlQ = [] ++ [1, 2] ∧
    (waiterRun (⟨[], [], false, .active⟩ : EventWaiterM Nat Nat)
        [.pushSdl 1, .clearNote, .pushSdl 2]).notifier = true := by
  have h := C9_no_lost_wakeups (⟨[], [], false, .active⟩ : EventWaiterM Nat Nat)
    [.pushSdl 1, .clearNote, .pushSdl 2] (by decide)
  exact ⟨by simpa [sdlItems] using h.1,
    h.2.2.2.2 [.pushSdl 1, .clearNote] (.pushSdl 2) [] (by decide) (by decide) (by decide)⟩

/-! ### C10: prompt cursor stays inside the selected input line -/

/-- Reading back an in-range updated slot of a list. -/
theorem getD_set_self {α : Type} (l : List α) (i : Nat) (a d : α) (h : i < l.length) :
    (l.set i a).getD i d = a := by
  induction l generalizing i with
  | nil => simp at h
  | cons x xs ih =>
      cases i with
      | zero => rfl
      | succ n =>
          simp only [List.set_cons_succ, List.getD_cons_succ]
          exact ih n (by simpa using h)

/-- Lemma: `add_input` preserves the cursor invariant. -/
theorem add_input_inv (p : PromptM) (s : List Char) (h : PromptInv p) :
    PromptInv (add_input p s) := by
  obtain ⟨hidx, hcur⟩ := h
  unfold promptInput at hcur
  unfold PromptInv promptInput
  simp only [add_input, promptInput, List.length_set]
  refine ⟨hidx, ?_⟩
  rw [getD_set_self _ _ _ _ hidx]
  split_ifs with hc
  · simp only [List.length_append]
    omega
  · simp only [List.length_append, List.length_take, List.length_drop]
    omega

/-- Lemma: `erase_input` preserves the cursor invariant. -/
theorem erase_input_inv (p : PromptM) (h : PromptInv p) :
    PromptInv (erase_input p) := by
  obtain ⟨hidx, hcur⟩ := h
  unfold promptInput at hcur
  unfold PromptInv promptInput
  simp only [erase_input, promptInput]
  split_ifs with hg he
  · exact ⟨hidx, hcur⟩
  · dsimp only
    simp only [List.length_set]
    refine ⟨hidx, ?_⟩
    rw [getD_set_self _ _ _ _ hidx]
    simp only [List.length_dropLast]
    omega
  · dsimp only
    simp only [List.length_set]
    refine ⟨hidx, ?_⟩
    rw [getD_set_self _ _ _ _ hidx]
    simp only [List.length_append, List.length_take, List.length_drop]
    omega

/-- Lemma: `move_cursor_left` preserves the cursor invariant. -/
theorem move_cursor_left_inv (p : PromptM) (h : PromptInv p) :
    PromptInv (move_cursor_left p) := by
  obtain ⟨hidx, hcur⟩ := h
  unfold promptInput at hcur
  unfold PromptInv promptInput
  simp only [move_cursor_left, promptInput]
  split_ifs with hc
  · dsimp only
    exact ⟨hidx, by omega⟩
  · exact ⟨hidx, hcur⟩

/-- Lemma: `move_cursor_right` preserves the cursor invariant. -/
theorem move_cursor_right_inv (p : PromptM) (h : PromptInv p) :
    PromptInv (move_cursor_right p) := by
  obtain ⟨hidx, hcur⟩ := h
  unfold promptInput at hcur
  unfold PromptInv promptInput
  simp only [move_cursor_right, promptInput]
  split_ifs with hc
  · dsimp only
    exact ⟨hidx, by omega⟩
  · exact ⟨hidx, hcur⟩

/-- Lemma: `set_input_from_history` preserves the cursor invariant. -/
theorem set_input_from_history_inv (p : PromptM) (up : Bool) (h : PromptInv p) :
    PromptInv (set_input_from_history p up) := by
  obtain ⟨hidx, hcur⟩ := h
  unfold promptInput at hcur
  unfold PromptInv promptInput
  simp only [set_input_from_history]
  split_ifs with h1 h2 h3
  · exact ⟨by dsimp only; omega, by dsimp only; omega⟩
  · exact ⟨hidx, hcur⟩
  · exact ⟨by dsimp only; omega, by dsimp only; omega⟩
  · exact ⟨hidx, hcur⟩

/-- Each prompt-editing operation preserves the cursor invariant. -/
theorem promptStep_inv (p : PromptM) (op : PromptOp) (h : PromptInv p) :
    PromptInv (promptStep p op) := by
  cases op with
  | add s => exact add_input_inv p s h
  | erase => exact erase_input_inv p h
  | left => exact move_cursor_left_inv p h
  | right => exact move_cursor_right_inv p h
  | histUp => exact set_input_from_history_inv p true h
  | histDown => exact set_input_from_history_inv p false h
  | home => exact ⟨h.1, Nat.zero_le _⟩
  | toEnd => exact ⟨h.1, Nat.le_refl _⟩

/-- C10 (confirmed).  Prompt cursor invariant: from any well-formed
prompt state, every sequence of editing operations — `add_input`,
`erase_input`, `move_cursor_left`, `move_cursor_right`, history
navigation via `set_input_from_history`, and the Home/End handlers —
keeps `0 ≤ cursor ≤ length of the selected input line` (the lower bound
holds by the `size_t` type of the cursor, modelled as `Nat`), so
cursor-relative indexing into the input never goes out of range. -/
theorem C10_prompt_cursor_invariant (p : PromptM) (ops : List PromptOp) (h : PromptInv p) :
    PromptInv (ops.foldl promptStep p) := by
  induction ops generalizing p with
  | nil => exact h
  | cons op rest ih => exact ih (promptStep p op) (promptStep_inv p op h)

/-- Witness for C10: the initial prompt state (one empty history line)
is well formed and stays so under a concrete editing sequence. -/
theorem C10_witness :
    PromptInv ⟨[[]], 0, 0⟩ ∧
    PromptInv ([PromptOp.add "hi".toList, .left, .erase, .histUp, .toEnd].foldl
      promptStep ⟨[[]], 0, 0⟩) :=
  ⟨by decide, C10_prompt_cursor_invariant ⟨[[]], 0, 0⟩ _ (by decide)⟩

/-! ### C5: rendezvous termination after shutdown -/

/-- Counterexample to C5 as stated.  After a single `shutdown()` on an
idle `InputLineWaiter`, the first `wait_get` on the empty queue does
return the empty sentinel — but it executes `completed = false` on the
way out, so the second `wait_get` finds the flag clear and parks on
`completed.wait(false)` forever instead of returning the sentinel.  The
terminal state is not idempotent: repeated calls do not keep returning
the sentinel. -/
theorem C5_counterexample :
    (wait_get (ilwShutdown ⟨[], false⟩)).1 = WaitOutcome.sentinel ∧
    (wait_get (wait_get (ilwShutdown ⟨[], false⟩)).2).1 = WaitOutcome.blocked := by
  decide

/-- C5 (corrected).  Each `shutdown()` releases exactly one waiter: from
any state with an empty queue, (i) a `wait_get` would block exactly when
`completed` is unset, (ii) after `shutdown()` the next `wait_get` —
whether it was already parked (its retry after the wake) or arrives
later — returns the empty sentinel (0, buffer unmodified) with the queue
still empty, (iii) that call consumes the `completed` flag, so (iv) a
further `wait_get` on the still-empty queue blocks again until another
`push` or `shutdown`.  A queued line is never lost: with a non-empty
queue `wait_get` pops the front line even after shutdown. -/
theorem C5_single_release_per_shutdown (s : InputLineWaiterM) (hq : s.inputQ = []) :
    ((wait_get s).1 = WaitOutcome.blocked ↔ s.completed = false) ∧
    (wait_get (ilwShutdown s)).1 = WaitOutcome.sentinel ∧
    (wait_get (ilwShutdown s)).2 = ⟨[], false⟩ ∧
    (wait_get (wait_get (ilwShutdown s)).2).1 = WaitOutcome.blocked ∧
    (∀ (t : InputLineWaiterM) (l : List Char) (rest : List (List Char)),
      t.inputQ = l :: rest → wait_get (ilwShutdown t) = (WaitOutcome.got l, ⟨rest, true⟩)) := by
  obtain ⟨q, c⟩ := s
  simp only at hq
  subst hq
  refine ⟨?_, ?_, ?_, ?_, ?_⟩
  · cases c <;> simp [wait_get]
  · simp [wait_get, ilwShutdown]
  · simp [wait_get, ilwShutdown]
  · simp [wait_get, ilwShutdown]
  · intro t l rest h
    obtain ⟨q', c'⟩ := t
    simp only at h
    subst h
    simp [wait_get, ilwShutdown]

/-- Witness for C5 at the concrete idle state. -/
theorem C5_witness :
    ((wait_get (⟨[], false⟩ : InputLineWaiterM)).1 = WaitOutcome.blocked ↔
      (⟨[], false⟩ : InputLineWaiterM).completed = false) ∧
    (wait_get (ilwShutdown ⟨[], false⟩)).1 = WaitOutcome.sentinel :=
  ⟨(C5_single_release_per_shutdown ⟨[], false⟩ rfl).1,
   (C5_single_release_per_shutdown ⟨[], false⟩ rfl).2.1⟩

/-! ### C1: eviction bookkeeping of the scrollback store -/

/-- Unfolding `linesSum` over a cons cell. -/
theorem linesSum_cons (e : LogEntryM) (es : List LogEntryM) :
    linesSum (e :: es) = (e.size : Int) + linesSum es := by
  simp only [linesSum, List.map_cons, List.sum_cons]
  push_cast
  ring

/-- Splitting `linesSum` at the last entry. -/
theorem linesSum_dropLast (es : List LogEntryM) (last : LogEntryM)
    (h : es.getLast? = some last) :
    linesSum es = linesSum es.dropLast + (last.size : Int) := by
  conv_lhs => rw [← List.dropLast_append_getLast? last (Option.mem_def.mpr h)]
  simp only [linesSum, List.map_append, List.sum_append, List.map_cons, List.sum_cons,
    List.map_nil, List.sum_nil]
  push_cast
  ring

/-- One append from any state satisfying the bookkeeping invariant: the
new entry is wrapped and prepended, at most one whole entry is dropped
from the back (oldest) end, `num_lines` is again the sum of the retained
entries' wrapped-line counts, and `max_lines`/`scroll_value` are
untouched. -/
theorem appendLine_spec (cw vw : Nat) (st : LogScreenM) (t : List Char)
    (hmax : 1 ≤ st.maxLines) (hsum : st.numLines = linesSum st.entries) :
    ((appendLine cw vw st t).entries = ⟨t, entrySize cw vw t⟩ :: st.entries ∨
      (appendLine cw vw st t).entries = ⟨t, entrySize cw vw t⟩ :: st.entries.dropLast) ∧
    (appendLine cw vw st t).numLines = linesSum (appendLine cw vw st t).entries ∧
    (appendLine cw vw st t).maxLines = st.maxLines ∧
    (appendLine cw vw st t).scrollValue = st.scrollValue := by
  by_cases hevict : st.maxLines ≤ st.numLines
  · have hpos : (0 : Int) < st.numLines := lt_of_lt_of_le (by omega) hevict
    cases hes : st.entries with
    | nil =>
        rw [hes] at hsum
        simp only [linesSum, List.map_nil, List.sum_nil, Nat.cast_zero] at hsum
        omega
    | cons e0 es0 =>
        have hne : e0 :: es0 ≠ [] := by simp
        have hlast : (e0 :: es0).getLast? = some ((e0 :: es0).getLast hne) :=
          List.getLast?_eq_getLast _ hne
        have hce : create_entry st t =
            { st with
              entries := ⟨t, 0⟩ :: (e0 :: es0).dropLast
              numLines := st.numLines - (((e0 :: es0).getLast hne).size : Int) } := by
          simp only [create_entry, hes]
          rw [if_pos hevict]
          simp only [List.dropLast_cons₂, List.getLast?_cons_cons, hlast,
            Option.map_some', Option.getD_some]
        have happ : appendLine cw vw st t =
            { st with
              entries := ⟨t, entrySize cw vw t⟩ :: (e0 :: es0).dropLast
              numLines := st.numLines - (((e0 :: es0).getLast hne).size : Int) +
                (entrySize cw vw t : Int) } := by
          rw [appendLine, hce]
          rfl
        rw [happ]
        refine ⟨Or.inr rfl, ?_, rfl, rfl⟩
        have hdecomp := linesSum_dropLast (e0 :: es0) _ hlast
        rw [hes] at hsum
        rw [linesSum_cons]
        dsimp only
        omega
  · have hce : create_entry st t = { st with entries := ⟨t, 0⟩ :: st.entries } := by
      simp only [create_entry]
      rw [if_neg hevict]
    have happ : appendLine cw vw st t =
        { st with
          entries := ⟨t, entrySize cw vw t⟩ :: st.entries
          numLines := st.numLines + (entrySize cw vw t : Int) } := by
      rw [appendLine, hce]
      rfl
    rw [happ]
    refine ⟨Or.inl rfl, ?_, rfl, rfl⟩
    rw [linesSum_cons]
    dsimp only
    omega

/-- The bookkeeping invariant holds after any sequence of appends. -/
theorem appendAll_inv (cw vw : Nat) (st : LogScreenM) (texts : List (List Char))
    (hmax : 1 ≤ st.maxLines) (hsum : st.numLines = linesSum st.entries) :
    (appendAll cw vw st texts).numLines = linesSum (appendAll cw vw st texts).entries ∧
    (appendAll cw vw st texts).maxLines = st.maxLines := by
  induction texts generalizing st with
  | nil => exact ⟨hsum, rfl⟩
  | cons t rest ih =>
      obtain ⟨-, hsum', hmax', -⟩ := appendLine_spec cw vw st t hmax hsum
      obtain ⟨ih1, ih2⟩ := ih (appendLine cw vw st t) (by omega) hsum'
      exact ⟨ih1, by rw [appendAll] at ih2 ⊢; rw [List.foldl_cons, ih2, hmax']⟩

/-- When every entry wraps to exactly one display line, one append keeps
`num_lines ≤ max_lines` (the one-out-one-in eviction is exact in this
case). -/
theorem appendLine_single_bound (cw vw : Nat) (st : LogScreenM) (t : List Char)
    (hmax : 1 ≤ st.maxLines) (hsum : st.numLines = linesSum st.entries)
    (hall : ∀ e ∈ st.entries, e.size = 1) (ht : entrySize cw vw t = 1)
    (hb : st.numLines ≤ st.maxLines) :
    (appendLine cw vw st t).numLines ≤ (appendLine cw vw st t).maxLines ∧
    (∀ e ∈ (appendLine cw vw st t).entries, e.size = 1) := by
  by_cases hevict : st.maxLines ≤ st.numLines
  · have hpos : (0 : Int) < st.numLines := lt_of_lt_of_le (by omega) hevict
    cases hes : st.entries with
    | nil =>
        rw [hes] at hsum
        simp only [linesSum, List.map_nil, List.sum_nil, Nat.cast_zero] at hsum
        omega
    | cons e0 es0 =>
        have hne : e0 :: es0 ≠ [] := by simp
        have hlast : (e0 :: es0).getLast? = some ((e0 :: es0).getLast hne) :=
          List.getLast?_eq_getLast _ hne
        have hlsize : ((e0 :: es0).getLast hne).size = 1 := by
          refine hall _ ?_
          rw [hes]
          exact List.getLast_mem hne
        have hce : create_entry st t =
            { st with
              entries := ⟨t, 0⟩ :: (e0 :: es0).dropLast
              numLines := st.numLines - (((e0 :: es0).getLast hne).size : Int) } := by
          simp only [create_entry, hes]
          rw [if_pos hevict]
          simp only [List.dropLast_cons₂, List.getLast?_cons_cons, hlast,
            Option.map_some', Option.getD_some]
        have happ : appendLine cw vw st t =
            { st with
              entries := ⟨t, entrySize cw vw t⟩ :: (e0 :: es0).dropLast
              numLines := st.numLines - (((e0 :: es0).getLast hne).size : Int) +
                (entrySize cw vw t : Int) } := by
          rw [appendLine, hce]
          rfl
        rw [happ]
        constructor
        · dsimp only
          rw [hlsize, ht]
          push_cast
          omega
        · intro e he
          dsimp only at he
          rcases List.mem_cons.mp he with rfl | he'
          · exact ht
          · refine hall e ?_
            rw [hes]
            exact List.dropLast_subset _ he'
  · have hce : create_entry st t = { st with entries := ⟨t, 0⟩ :: st.entries } := by
      simp only [create_entry]
      rw [if_neg hevict]
    have happ : appendLine cw vw st t =
        { st with
          entries := ⟨t, entrySize cw vw t⟩ :: st.entries
          numLines := st.numLines + (entrySize cw vw t : Int) } := by
      rw [appendLine, hce]
      rfl
    rw [happ]
    constructor
    · dsimp only
      rw [ht]
      push_cast
      omega
    · intro e he
      dsimp only at he
      rcases List.mem_cons.mp he with rfl | he'
      · exact ht
      · exact hall e he'

/-- The single-line bound holds after any sequence of appends. -/
theorem appendAll_single_bound (cw vw : Nat) (st : LogScreenM) (texts : List (List Char))
    (hmax : 1 ≤ st.maxLines) (hsum : st.numLines = linesSum st.entries)
    (hall : ∀ e ∈ st.entries, e.size = 1)
    (hones : ∀ u ∈ texts, entrySize cw vw u = 1)
    (hb : st.numLines ≤ st.maxLines) :
    (appendAll cw vw st texts).numLines ≤ (appendAll cw vw st texts).maxLines := by
  induction texts generalizing st with
  | nil => exact le_trans hb (le_of_eq rfl)
  | cons t rest ih =>
      obtain ⟨-, hsum', hmax', -⟩ := appendLine_spec cw vw st t hmax hsum
      obtain ⟨hb', hall'⟩ := appendLine_single_bound cw vw st t hmax hsum hall
        (hones t (by simp)) hb
      have := ih (appendLine cw vw st t) (by omega) hsum' hall'
        (fun u hu => hones u (by simp [hu])) (by omega)
      simpa only [appendAll, List.foldl_cons] using this

/-- Counterexample to C1 as stated: with `max_lines = 1`, appending a
single entry that wraps into two display lines (`"aaaa"` at char width 1
and viewport width 2) finishes with `num_lines = 2 > max_lines`.  The
single-`if` eviction of `create_entry` removes at most one entry per
append and only checks the pre-append count, so the bound
`num_lines ≤ max_lines` fails for multi-line entries. -/
theorem C1_counterexample :
    (appendLine 1 2 (initLogScreen 1) "aaaa".toList).numLines = 2 ∧
    ¬((appendLine 1 2 (initLogScreen 1) "aaaa".toList).numLines ≤
        (appendLine 1 2 (initLogScreen 1) "aaaa".toList).maxLines) := by
  decide

/-- C1 (corrected).  Eviction bookkeeping: for every sequence of appends
from a fresh store with `max_lines ≥ 1`, (i) after every append
`num_lines` equals the sum over retained entries of the entry's
wrapped-line count, (ii) each append prepends the freshly wrapped entry
and either keeps all old entries or drops exactly the whole oldest
(back) entry — never part of one — and (iii) the claimed bound
`num_lines ≤ max_lines` does hold in the special case that every
appended entry wraps to exactly one display line (it fails in general,
see the counterexample). -/
theorem C1_eviction_bookkeeping (cw vw : Nat) (maxL : Int) (hmax : 1 ≤ maxL)
    (texts pre : List (List Char)) (t : List Char) :
    (appendAll cw vw (initLogScreen maxL) texts).numLines =
      linesSum (appendAll cw vw (initLogScreen maxL) texts).entries ∧
    ((appendAll cw vw (initLogScreen maxL) (pre ++ [t])).entries =
        ⟨t, entrySize cw vw t⟩ :: (appendAll cw vw (initLogScreen maxL) pre).entries ∨
      (appendAll cw vw (initLogScreen maxL) (pre ++ [t])).entries =
        ⟨t, entrySize cw vw t⟩ ::
          (appendAll cw vw (initLogScreen maxL) pre).entries.dropLast) ∧
    ((∀ u ∈ texts, entrySize cw vw u = 1) →
      (appendAll cw vw (initLogScreen maxL) texts).numLines ≤ maxL) := by
  have hinit : (initLogScreen maxL).numLines = linesSum (initLogScreen maxL).entries := by
    simp [initLogScreen, linesSum]
  refine ⟨(appendAll_inv cw vw _ texts hmax hinit).1, ?_, ?_⟩
  · obtain ⟨hsum', hmax'⟩ := appendAll_inv cw vw (initLogScreen maxL) pre hmax hinit
    rw [show (initLogScreen maxL).maxLines = maxL from rfl] at hmax'
    have hsplit : appendAll cw vw (initLogScreen maxL) (pre ++ [t]) =
        appendLine cw vw (appendAll cw vw (initLogScreen maxL) pre) t := by
      simp [appendAll, List.foldl_append]
    rw [hsplit]
    exact (appendLine_spec cw vw _ t (by omega) hsum').1
  · intro hones
    have := appendAll_single_bound cw vw (initLogScreen maxL) texts hmax hinit
      (by intro e he; simp [initLogScreen] at he) hones
      (by dsimp only [initLogScreen]; omega)
    have hmax' := (appendAll_inv cw vw (initLogScreen maxL) texts hmax hinit).2
    rw [show (initLogScreen maxL).maxLines = maxL from rfl] at hmax'
    omega

/-- Witness for C1 at the spec's own scenario: `max_lines = 3`, appends
`"a"`, `"b"`, `"c"`, `"d"` (each a single line at width 10): the bound
holds and the final count is the sum of the retained sizes. -/
theorem C1_witness :
    ((1 : Int) ≤ 3) ∧
    (appendAll 1 10 (initLogScreen 3)
      ["a".toList, "b".toList, "c".toList, "d".toList]).numLines ≤ 3 :=
  ⟨by decide,
   (C1_eviction_bookkeeping 1 10 3 (by decide)
      ["a".toList, "b".toList, "c".toList, "d".toList] [] "a".toList).2.2 (by decide)⟩

/-! ### C2: the scroll offset is not re-clamped after eviction -/

/-- C2 evaluation at the failing input (code bug).  With
`max_lines = 3`, char width 1, viewport width 2: append `"aaaaaa"`
(3 wrapped lines), scroll up twice (offset 2, valid since
`num_lines - 1 = 2`), then append `"b"`.  `create_entry` evicts the
3-line entry and the append finishes with `num_lines = 1`, but neither
`create_entry` nor `update_entry` touches `scroll_value`
(`scrollbar.set_range` adjusts only the scrollbar range), so the offset
stays 2 — outside `[0, max(0, num_lines - 1)] = [0, 0]`, violating the
re-clamp rule the spec states for every mutation.  The final conjunct
shows `scroll` on an empty screen is also off: `min(max(0, v), -1)`
yields `-1` when `num_lines = 0`. -/
theorem C2_eval_failing_input :
    (appendLine 1 2
        (scroll 0 (scroll 0 (appendLine 1 2 (initLogScreen 3) "aaaaaa".toList) .up) .up)
        "b".toList).numLines = 1 ∧
    (appendLine 1 2
        (scroll 0 (scroll 0 (appendLine 1 2 (initLogScreen 3) "aaaaaa".toList) .up) .up)
        "b".toList).scrollValue = 2 ∧
    ¬((appendLine 1 2
        (scroll 0 (scroll 0 (appendLine 1 2 (initLogScreen 3) "aaaaaa".toList) .up) .up)
        "b".toList).scrollValue ≤
      max 0 ((appendLine 1 2
        (scroll 0 (scroll 0 (appendLine 1 2 (initLogScreen 3) "aaaaaa".toList) .up) .up)
        "b".toList).numLines - 1)) ∧
    (scroll 0 (initLogScreen 3) .up).scrollValue = -1 := by
  decide

/-! ### C6: clipboard separator placement -/

/-- Counterexample to C6 as stated.  One entry whose text wrapped into
the two display lines `"ab"` (row 0) and `"cd"` (row 10): selecting both
rows produces `"ab\ncd"` — the separator sits between two wrapped lines
of the same entry, whereas the claim allows separators only between two
different entries (which would give `"abcd"`). -/
theorem C6_counterexample :
    copy_to_clipboard 1 [[⟨"ab".toList, 0⟩, ⟨"cd".toList, 10⟩]]
        [⟨0, 0, 2⟩, ⟨0, 10, 2⟩] = "ab\ncd".toList ∧
    copy_to_clipboard 1 [[⟨"ab".toList, 0⟩, ⟨"cd".toList, 10⟩]]
        [⟨0, 0, 2⟩, ⟨0, 10, 2⟩] ≠ "abcd".toList := by
  decide

/-- Folding contributions from a non-empty accumulator prefixes every
later contribution, empty or not, with one separator. -/
theorem clipFold_ne_nil (cands : List (Option (List Char))) (a : Char) (acc : List Char) :
    cands.foldl clipStep (a :: acc) =
      (a :: acc) ++ ((cands.filterMap id).map (fun q => '\n' :: q)).flatten := by
  induction cands generalizing a acc with
  | nil => simp
  | cons c rest ih =>
      cases c with
      | none => simpa [clipStep, List.filterMap_cons] using ih a acc
      | some p =>
          have hstep : clipStep (a :: acc) (some p) = a :: (acc ++ '\n' :: p) := by
            simp [clipStep]
          rw [List.foldl_cons, hstep, ih a (acc ++ '\n' :: p)]
          simp [List.filterMap_cons]

/-- Folding contributions from the empty accumulator: leading empty
contributions vanish, after which a single separator precedes every
further contribution. -/
theorem clipFold_joinSep (cands : List (Option (List Char))) :
    cands.foldl clipStep [] =
      joinSep ((cands.filterMap id).dropWhile List.isEmpty) := by
  induction cands with
  | nil => rfl
  | cons c rest ih =>
      cases c with
      | none => simpa [clipStep, List.filterMap_cons] using ih
      | some p =>
          cases p with
          | nil =>
              simpa [clipStep, List.filterMap_cons, List.dropWhile_cons] using ih
          | cons x xs =>
              have hstep : clipStep [] (some (x :: xs)) = x :: xs := by
                simp [clipStep]
              rw [List.foldl_cons, hstep, clipFold_ne_nil rest x xs]
              simp [List.filterMap_cons, List.dropWhile_cons, joinSep]

/-- The triple-nested clipboard walk is the fold of `clipStep` over the
flattened candidate list. -/
theorem copy_to_clipboard_eq_foldl (cw : Nat) (entries : List (List ClipLine))
    (rects : List ClipRect) :
    copy_to_clipboard cw entries rects =
      ((entries.reverse.map (fun entry =>
        (entry.map (fun line => rects.reverse.map (clipPiece cw line))).flatten)).flatten).foldl
        clipStep [] := by
  unfold copy_to_clipboard
  rw [List.foldl_flatten, List.foldl_map]
  simp only [List.foldl_flatten, List.foldl_map]

/-- Lemma: `filterMap` pushes through a flatten. -/
theorem filterMap_flatten {α β : Type} (f : α → Option β) (L : List (List α)) :
    (L.flatten).filterMap f = (L.map (fun l => l.filterMap f)).flatten := by
  induction L with
  | nil => rfl
  | cons l ls ih => simp [List.filterMap_append, ih]

/-- The flattened candidates filter down to `clipPieces`. -/
theorem flat_cands_filterMap (cw : Nat) (entries : List (List ClipLine))
    (rects : List ClipRect) :
    ((entries.reverse.map (fun entry =>
        (entry.map (fun line => rects.reverse.map (clipPiece cw line))).flatten)).flatten).filterMap
        id = clipPieces cw entries rects := by
  unfold clipPieces
  rw [filterMap_flatten]
  congr 1
  rw [List.map_map]
  congr 1
  funext entry
  dsimp only [Function.comp]
  rw [filterMap_flatten, List.map_map]
  rfl

/-- C6 (corrected).  Clipboard separators: the clipboard string is the
contributions of the walk (entries oldest-first, each entry's wrapped
lines in order, each line's matching rect) — with leading empty
contributions dropped — joined by exactly one `'\n'` before every
contribution after the first.  The separator is therefore placed between
every two consecutive contributing *lines*, including two wrapped lines
of the same entry (see the counterexample), and never leads the string;
a trailing separator can only come from a trailing empty contribution
(a matched rect narrower than one character cell).  In particular, a
single fully selected line yields exactly that line's text with no
separator. -/
theorem C6_separator_rule (cw : Nat) (entries : List (List ClipLine))
    (rects : List ClipRect) :
    copy_to_clipboard cw entries rects =
      joinSep ((clipPieces cw entries rects).dropWhile List.isEmpty) ∧
    (∀ p : List Char, clipPieces cw entries rects = [p] →
      copy_to_clipboard cw entries rects = p) := by
  constructor
  · rw [copy_to_clipboard_eq_foldl, clipFold_joinSep, flat_cands_filterMap]
  · intro p hp
    rw [copy_to_clipboard_eq_foldl, clipFold_joinSep, flat_cands_filterMap, hp]
    cases p with
    | nil => rfl
    | cons x xs => simp [List.dropWhile_cons, joinSep]

/-- Witness for C6: a single fully selected line comes back verbatim,
with no separator. -/
theorem C6_witness :
    copy_to_clipboard 1 [[⟨"hello".toList, 0⟩]] [⟨0, 0, 5⟩] = "hello".toList :=
  (C6_separator_rule 1 [[⟨"hello".toList, 0⟩]] [⟨0, 0, 5⟩]).2 "hello".toList (by decide)

/-! ### C7: selection rectangle geometry -/

/-- Snapping down never increases the value (positive grid). -/
theorem snap_to_min_le (v g : Int) (hg : 0 < g) : snap_to_min v g ≤ v := by
  unfold snap_to_min
  rw [Int.fdiv_eq_ediv _ (le_of_lt hg)]
  exact Int.ediv_mul_le v (ne_of_gt hg)

/-- Snapping up never decreases the value (positive grid). -/
theorem le_snap_to_max (v g : Int) (hg : 0 < g) : v ≤ snap_to_max v g := by
  have h := snap_to_min_le (-v) g hg
  unfold snap_to_min at h
  have h2 : snap_to_max v g = -((-v).fdiv g * g) := by
    unfold snap_to_max
    ring
  omega

/-- A vertical span strictly larger than one line height covers at least
two rows. -/
theorem ceilDivI_ge_two (d lh : Int) (hlh : 0 < lh) (hd : lh < d) : 2 ≤ ceilDivI d lh := by
  unfold ceilDivI
  rw [Int.fdiv_eq_ediv _ (le_of_lt hlh)]
  by_contra h
  push_neg at h
  have h2 : (-1 : Int) ≤ (-d) / lh := by omega
  have h3 := (Int.le_ediv_iff_mul_le hlh).mp h2
  omega

/-- Lemma: `setLastW` on a list with an explicit last element. -/
theorem setLastW_append (w : Int) (xs : List RectM) (a : RectM) :
    setLastW w (xs ++ [a]) = xs ++ [{ a with w := w }] := by
  induction xs with
  | nil => rfl
  | cons x xs ih =>
      cases xs with
      | nil => rfl
      | cons y ys =>
          show x :: setLastW w ((y :: ys) ++ [a]) = x :: ((y :: ys) ++ [{ a with w := w }])
          rw [ih]

/-- The multi-row rect list: first row keeps its snapped left edge, the
loop emits full-width intermediate rows, and the final width overwrite
turns the last row into `[0, right)`. -/
theorem ghr_multi_shape (lh vpw top left right rows : Int) (h2 : 2 ≤ rows) :
    setLastW right
      ((⟨left, top, vpw, lh⟩ : RectM) ::
        (List.range (rows - 1).toNat).map
          (fun (i : Nat) => (⟨0, top + ((i : Int) + 1) * lh, vpw, lh⟩ : RectM))) =
      (⟨left, top, vpw, lh⟩ : RectM) ::
        ((List.range (rows - 2).toNat).map
          (fun (i : Nat) => (⟨0, top + ((i : Int) + 1) * lh, vpw, lh⟩ : RectM)) ++
          [⟨0, top + (rows - 1) * lh, right, lh⟩]) := by
  have hm : (rows - 1).toNat = (rows - 2).toNat + 1 := by omega
  have hcast : (((rows - 2).toNat : Int) + 1) = rows - 1 := by omega
  rw [hm, List.range_succ, List.map_append, List.map_cons, List.map_nil, ← List.cons_append,
    setLastW_append, List.cons_append]
  congr 3
  rw [hcast]

/-- C7 (confirmed).  Selection rectangle geometry: with positive char
width and line height, (i) when the drag's vertical extent is at most
one line height the mapper returns exactly one rect whose left and right
edges are the endpoints' minimum and maximum x snapped down resp. up to
char-width multiples; (ii) otherwise the first row's rect starts at the
top endpoint's snapped x (full viewport width wide), every intermediate
row spans `[0, viewport_w)`, and the last row runs from 0 to the bottom
endpoint's x snapped up — the first and last rows' horizontal extents
follow the two drag endpoints, intermediate rows the viewport.  (When
the two endpoints share a row the top endpoint is the drag start, by the
tie-keeping `std::minmax`.) -/
theorem C7_selection_rect_geometry (cw lh vpw : Int) (s e : PointM)
    (hcw : 0 < cw) (hlh : 0 < lh) :
    (max s.y e.y - min s.y e.y ≤ lh →
      get_highlighted_rects cw lh vpw s e =
        [⟨snap_to_min (min s.x e.x) cw, snap_to_min (min s.y e.y) lh,
          snap_to_max (max s.x e.x) cw - snap_to_min (min s.x e.x) cw, lh⟩]) ∧
    (lh < max s.y e.y - min s.y e.y →
      2 ≤ ceilDivI (snap_to_max (max s.y e.y) lh - snap_to_min (min s.y e.y) lh) lh ∧
      get_highlighted_rects cw lh vpw s e =
        (⟨snap_to_min (if e.y < s.y then e.x else s.x) cw, snap_to_min (min s.y e.y) lh,
          vpw, lh⟩ : RectM) ::
          ((List.range ((ceilDivI (snap_to_max (max s.y e.y) lh -
              snap_to_min (min s.y e.y) lh) lh - 2).toNat)).map
            (fun (i : Nat) => (⟨0, snap_to_min (min s.y e.y) lh + ((i : Int) + 1) * lh, vpw,
              lh⟩ : RectM)) ++
            [⟨0, snap_to_min (min s.y e.y) lh +
                (ceilDivI (snap_to_max (max s.y e.y) lh -
                  snap_to_min (min s.y e.y) lh) lh - 1) * lh,
              snap_to_max (if e.y < s.y then s.x else e.x) cw, lh⟩])) := by
  by_cases hy : e.y < s.y
  · have hmin : min s.y e.y = e.y := min_eq_right (le_of_lt hy)
    have hmax : max s.y e.y = s.y := max_eq_left (le_of_lt hy)
    constructor
    · intro h
      rw [hmax, hmin] at h
      simp only [get_highlighted_rects, if_pos hy, if_pos h, hmin]
    · intro h
      rw [hmax, hmin] at h
      have hrows : 2 ≤ ceilDivI (snap_to_max s.y lh - snap_to_min e.y lh) lh := by
        refine ceilDivI_ge_two _ _ hlh ?_
        have h1 := snap_to_min_le e.y lh hlh
        have h2 := le_snap_to_max s.y lh hlh
        omega
      refine ⟨by rwa [hmax, hmin], ?_⟩
      simp only [get_highlighted_rects, if_pos hy, if_neg (not_le.mpr h), hmin, hmax,
        if_pos hy]
      exact ghr_multi_shape lh vpw _ _ _ _ hrows
  · have hle : s.y ≤ e.y := not_lt.mp hy
    have hmin : min s.y e.y = s.y := min_eq_left hle
    have hmax : max s.y e.y = e.y := max_eq_right hle
    constructor
    · intro h
      rw [hmax, hmin] at h
      simp only [get_highlighted_rects, if_neg hy, if_pos h, hmin]
    · intro h
      rw [hmax, hmin] at h
      have hrows : 2 ≤ ceilDivI (snap_to_max e.y lh - snap_to_min s.y lh) lh := by
        refine ceilDivI_ge_two _ _ hlh ?_
        have h1 := snap_to_min_le s.y lh hlh
        have h2 := le_snap_to_max e.y lh hlh
        omega
      refine ⟨by rwa [hmax, hmin], ?_⟩
      simp only [get_highlighted_rects, if_neg hy, if_neg (not_le.mpr h), hmin, hmax]
      exact ghr_multi_shape lh vpw _ _ _ _ hrows

/-- Witness for C7: a single-row drag and a three-row drag, with char
width 2, line height 10, viewport width 100. -/
theorem C7_witness :
    get_highlighted_rects 2 10 100 ⟨5, 3⟩ ⟨11, 9⟩ = [⟨4, 0, 8, 10⟩] ∧
    get_highlighted_rects 2 10 100 ⟨5, 3⟩ ⟨11, 27⟩ =
      [⟨4, 0, 100, 10⟩, ⟨0, 10, 100, 10⟩, ⟨0, 20, 12, 10⟩] :=
  ⟨((C7_selection_rect_geometry 2 10 100 ⟨5, 3⟩ ⟨11, 9⟩ (by decide) (by decide)).1
      (by decide)).trans (by decide),
   (((C7_selection_rect_geometry 2 10 100 ⟨5, 3⟩ ⟨11, 27⟩ (by decide) (by decide)).2
      (by decide)).2).trans (by decide)⟩

/-! ### C3, C4: the line-wrapping scan -/

/-- An index holding a value lies inside the list. -/
theorem lt_length_of_getElem? {α : Type} {l : List α} {n : Nat} {a : α}
    (h : l[n]? = some a) : n < l.length := by
  by_contra hn
  rw [List.getElem?_eq_none (by omega)] at h
  exact Option.noConfusion h

/-- Closing a segment `[a, b]` and resuming at `ns > b` keeps the
emitted segments well-formed, ordered and bounded by the new start. -/
theorem segsPush (segs : List Seg) (a b ns : Nat)
    (h4 : ∀ s ∈ segs, s.start ≤ s.stop)
    (h5 : List.Chain' (fun x y => x.stop < y.start) segs)
    (h6 : ∀ s ∈ segs.getLast?, s.stop < a)
    (hab : a ≤ b) (hb : b < ns) :
    (∀ s ∈ segs ++ [(⟨a, b⟩ : Seg)], s.start ≤ s.stop) ∧
    List.Chain' (fun x y => x.stop < y.start) (segs ++ [(⟨a, b⟩ : Seg)]) ∧
    (∀ s ∈ (segs ++ [(⟨a, b⟩ : Seg)]).getLast?, s.stop < ns) := by
  refine ⟨?_, ?_, ?_⟩
  · intro s hs
    rcases List.mem_append.mp hs with hs | hs
    · exact h4 s hs
    · rw [List.mem_singleton] at hs
      subst hs
      exact hab
  · rw [List.chain'_append]
    refine ⟨h5, List.chain'_singleton _, ?_⟩
    intro x hx y hy
    simp only [List.head?_cons, Option.mem_def, Option.some.injEq] at hy
    subst hy
    exact h6 x hx
  · intro s hs
    rw [List.getLast?_concat] at hs
    simp only [Option.mem_def, Option.some.injEq] at hs
    subst hs
    exact hb

/-- One scan step preserves well-formedness and advances the cursor. -/
theorem splitStep_inv (cw vw : Nat) (text : List Char) (st : ScanState) (ch : Char)
    (hinv : ScanInv text st) (hch : text[st.curr]? = some ch) :
    ScanInv text (splitStep cw vw st ch) ∧ (splitStep cw vw st ch).curr = st.curr + 1 := by
  obtain ⟨h1, h2, h3, h4, h5, h6⟩ := hinv
  have hlen : st.curr < text.length := lt_length_of_getElem? hch
  unfold splitStep
  by_cases hbr : isBreakChar ch
  · rw [if_pos hbr]
    by_cases hlt : st.start < st.curr
    · rw [if_pos hlt]
      obtain ⟨p4, p5, p6⟩ := segsPush st.segs st.start st.curr (st.curr + 1) h4 h5 h6
        (by omega) (by omega)
      exact ⟨⟨le_refl _, by dsimp only; omega, Or.inl rfl, p4, p5, p6⟩, rfl⟩
    · rw [if_neg hlt]
      refine ⟨⟨le_refl _, by dsimp only; omega, Or.inl rfl, h4, h5, ?_⟩, rfl⟩
      intro s hs
      have := h6 s hs
      dsimp only
      omega
  · rw [if_neg hbr]
    by_cases hsp : isSpaceChar ch
    · rw [if_pos hsp]
      refine ⟨⟨by dsimp only; omega, by dsimp only; omega, ?_, h4, h5, ?_⟩, rfl⟩
      · by_cases hc0 : st.curr = 0
        · exact Or.inl (by dsimp only; omega)
        · refine Or.inr ⟨by dsimp only; omega, by dsimp only; omega, ⟨ch, ?_, hsp⟩⟩
          exact hch
      · intro s hs
        have := h6 s hs
        dsimp only
        omega
    · rw [if_neg hsp]
      by_cases hw : vw ≤ (st.curr - st.start + 1) * cw
      · rw [if_pos hw]
        by_cases hd : st.delim ≠ 0
        · rw [if_pos hd]
          rcases h3 with h0 | ⟨hda, hdb, -⟩
          · exact absurd h0 hd
          obtain ⟨p4, p5, p6⟩ := segsPush st.segs st.start st.delim (st.delim + 1) h4 h5 h6
            hda (by omega)
          exact ⟨⟨by dsimp only; omega, by dsimp only; omega, Or.inl rfl, p4, p5, p6⟩, rfl⟩
        · rw [if_neg hd]
          obtain ⟨p4, p5, p6⟩ := segsPush st.segs st.start st.curr (st.curr + 1) h4 h5 h6
            h1 (by omega)
          exact ⟨⟨le_refl _, by dsimp only; omega, Or.inl (by dsimp only; omega),
            p4, p5, p6⟩, rfl⟩
      · rw [if_neg hw]
        refine ⟨⟨by dsimp only; omega, by dsimp only; omega, ?_, h4, h5, ?_⟩, rfl⟩
        · rcases h3 with h0 | ⟨hda, hdb, hcw⟩
          · exact Or.inl h0
          · exact Or.inr ⟨hda, by dsimp only; omega, hcw⟩
        · intro s hs
          have := h6 s hs
          dsimp only
          omega

/-- Appending one more character to the processed prefix. -/
theorem take_succ_of_getElem? (text : List Char) (curr : Nat) (ch : Char)
    (hch : text[curr]? = some ch) :
    text.take (curr + 1) = text.take curr ++ [ch] := by
  rw [List.take_succ, hch]
  rfl

/-- Extending a reconstruction of `take curr` to `take (curr + 1)`. -/
theorem concat_step (text : List Char) (flat : List Char) (start curr : Nat) (ch : Char)
    (hch : text[curr]? = some ch) (hsc : start ≤ curr)
    (hcon : flat ++ (text.take curr).drop start = text.take curr) :
    flat ++ (text.take (curr + 1)).drop start = text.take (curr + 1) := by
  have hlen := lt_length_of_getElem? hch
  rw [take_succ_of_getElem? text curr ch hch,
    List.drop_append_of_le_length (by rw [List.length_take]; omega),
    ← List.append_assoc, hcon]

/-- Splitting a contiguous slice of the text at an interior point. -/
theorem slice_split (text : List Char) (a b c : Nat) (hab : a ≤ b) (hbc : b ≤ c)
    (hc : c ≤ text.length) :
    (text.take b).drop a ++ (text.take c).drop b = (text.take c).drop a := by
  have h1 : text.take c = text.take b ++ (text.take c).drop b := by
    conv_lhs => rw [← List.take_append_drop b (text.take c)]
    rw [List.take_take, min_eq_left hbc]
  conv_rhs => rw [h1]
  rw [List.drop_append_of_le_length (by rw [List.length_take]; omega)]

/-- A closed segment's view is the corresponding slice of the text. -/
theorem segView_eq_slice (text : List Char) (a b : Nat) (hab : a ≤ b) :
    segView text ⟨a, b⟩ = (text.take (b + 1)).drop a := by
  unfold segView
  dsimp only
  rw [List.drop_take]
  congr 1
  omega

/-- One scan step over a break-free text preserves the
prefix-reconstruction invariant. -/
theorem splitStep_concat (cw vw : Nat) (text : List Char) (st : ScanState) (ch : Char)
    (hinv : ScanInv text st) (hcon : ConcatInv text st)
    (hch : text[st.curr]? = some ch) (hbr : isBreakChar ch = false) :
    ConcatInv text (splitStep cw vw st ch) := by
  obtain ⟨h1, h2, h3, h4, h5, h6⟩ := hinv
  have hlen : st.curr < text.length := lt_length_of_getElem? hch
  unfold ConcatInv at hcon ⊢
  unfold splitStep
  rw [if_neg (by simp [hbr])]
  by_cases hsp : isSpaceChar ch
  · rw [if_pos hsp]
    exact concat_step text _ st.start st.curr ch hch h1 hcon
  · rw [if_neg hsp]
    by_cases hw : vw ≤ (st.curr - st.start + 1) * cw
    · rw [if_pos hw]
      by_cases hd : st.delim ≠ 0
      · rw [if_pos hd]
        rcases h3 with h0 | ⟨hda, hdb, -⟩
        · exact absurd h0 hd
        dsimp only
        rw [List.map_append, List.flatten_append, List.map_cons, List.map_nil,
          List.flatten_cons, List.flatten_nil, List.append_nil,
          segView_eq_slice text st.start st.delim hda, List.append_assoc,
          slice_split text st.start (st.delim + 1) (st.curr + 1) (by omega) (by omega)
            (by omega)]
        exact concat_step text _ st.start st.curr ch hch h1 hcon
      · rw [if_neg hd]
        dsimp only
        rw [List.map_append, List.flatten_append, List.map_cons, List.map_nil,
          List.flatten_cons, List.flatten_nil, List.append_nil,
          show (text.take (st.curr + 1)).drop (st.curr + 1) = [] from
            List.drop_eq_nil_iff.mpr (by rw [List.length_take]; omega),
          List.append_nil, segView_eq_slice text st.start st.curr h1]
        exact concat_step text _ st.start st.curr ch hch h1 hcon
    · rw [if_neg hw]
      exact concat_step text _ st.start st.curr ch hch h1 hcon

/-- Running the scan over the unprocessed tail of the text. -/
theorem splitScan_aux (cw vw : Nat) (text rest : List Char) (st : ScanState)
    (hrest : rest = text.drop st.curr) (hinv : ScanInv text st) :
    ScanInv text (rest.foldl (splitStep cw vw) st) ∧
    (rest.foldl (splitStep cw vw) st).curr = text.length ∧
    ((∀ c ∈ text, isBreakChar c = false) → ConcatInv text st →
      ConcatInv text (rest.foldl (splitStep cw vw) st)) := by
  induction rest generalizing st with
  | nil =>
      refine ⟨hinv, ?_, fun _ h => h⟩
      have h2 := hinv.2.1
      have h3 := List.drop_eq_nil_iff.mp hrest.symm
      simpa using by omega
  | cons c cs ih =>
      have hch : text[st.curr]? = some c := by
        have h0 : (text.drop st.curr)[0]? = some c := by
          rw [← hrest]
          simp
        rw [List.getElem?_drop] at h0
        simpa using h0
      obtain ⟨hinv', hcurr'⟩ := splitStep_inv cw vw text st c hinv hch
      have hrest' : cs = text.drop (splitStep cw vw st c).curr := by
        rw [hcurr', ← List.tail_drop, ← hrest]
        rfl
      obtain ⟨ha, hb, hc2⟩ := ih (splitStep cw vw st c) hrest' hinv'
      refine ⟨ha, hb, ?_⟩
      intro hnb hcon
      refine hc2 hnb (splitStep_concat cw vw text st c ⟨hinv.1, hinv.2⟩ hcon hch ?_)
      refine hnb c ?_
      exact List.getElem?_mem hch

/-- The scan of a whole text: well-formed final state, cursor at the
end, and (for break-free text) exact prefix reconstruction. -/
theorem splitScan_spec (cw vw : Nat) (text : List Char) :
    ScanInv text (splitScan cw vw text) ∧
    (splitScan cw vw text).curr = text.length ∧
    ((∀ c ∈ text, isBreakChar c = false) → ConcatInv text (splitScan cw vw text)) := by
  have base : ScanInv text initScan := by
    refine ⟨le_refl 0, Nat.zero_le _, Or.inl rfl, ?_, ?_, ?_⟩ <;> simp [initScan]
  obtain ⟨ha, hb, hc⟩ := splitScan_aux cw vw text text initScan (List.drop_zero text).symm base
  exact ⟨ha, hb, fun hnb => hc hnb (by simp [ConcatInv, initScan])⟩

/-- The retained wrapped-line ranges of `split_entry_text`: every
segment is well-formed (`start ≤ stop`), the list is strictly ordered
and non-overlapping, the final `end >= start` filter keeps everything,
and for break-free text the concatenated views spell the text. -/
theorem split_entry_text_spec (cw vw : Nat) (text : List Char) :
    split_entry_text cw vw text = splitSegs cw vw text ∧
    (∀ s ∈ split_entry_text cw vw text, s.start ≤ s.stop) ∧
    List.Chain' (fun a b => a.stop < b.start) (split_entry_text cw vw text) ∧
    ((∀ c ∈ text, isBreakChar c = false) → (entryLines cw vw text).flatten = text) := by
  obtain ⟨⟨h1, h2, h3, h4, h5, h6⟩, hcurr, hcon⟩ := splitScan_spec cw vw text
  have hsegs : (∀ s ∈ splitSegs cw vw text, s.start ≤ s.stop) ∧
      List.Chain' (fun a b => a.stop < b.start) (splitSegs cw vw text) := by
    unfold splitSegs
    by_cases hf : (splitScan cw vw text).start < text.length
    · rw [if_pos hf]
      obtain ⟨p4, p5, -⟩ := segsPush (splitScan cw vw text).segs
        (splitScan cw vw text).start (text.length - 1) text.length h4 h5 h6
        (by omega) (by omega)
      exact ⟨p4, p5⟩
    · rw [if_neg hf]
      exact ⟨h4, h5⟩
  have hfilter : split_entry_text cw vw text = splitSegs cw vw text := by
    unfold split_entry_text
    refine List.filter_eq_self.mpr ?_
    intro s hs
    simpa using hsegs.1 s hs
  refine ⟨hfilter, by rw [hfilter]; exact hsegs.1, by rw [hfilter]; exact hsegs.2, ?_⟩
  intro hnb
  have hcon' := hcon hnb
  unfold ConcatInv at hcon'
  rw [hcurr, List.take_length] at hcon'
  unfold entryLines
  rw [hfilter]
  unfold splitSegs
  by_cases hf : (splitScan cw vw text).start < text.length
  · rw [if_pos hf, List.map_append, List.flatten_append, List.map_cons, List.map_nil,
      List.flatten_cons, List.flatten_nil, List.append_nil,
      segView_eq_slice text (splitScan cw vw text).start (text.length - 1) (by omega),
      show text.length - 1 + 1 = text.length from by omega, List.take_length]
    exact hcon'
  · rw [if_neg hf]
    rw [List.drop_eq_nil_iff.mpr (by omega)] at hcon'
    rw [List.append_nil] at hcon'
    exact hcon'

/-- Counterexample to C3 as stated.  Wrapping `"hello world foo"` at
char width 1 into a 10-pixel column splits at the whitespace into the
views `"hello "` and `"world foo"` — the delimiter space is *retained*
at the end of the first segment, not stripped.  Re-inserting "exactly
one stripped delimiter" between the two whitespace-split segments, as
the claim prescribes, yields `"hello  world foo"` and fails to
reconstruct the text; plain concatenation with nothing re-inserted
succeeds. -/
theorem C3_counterexample :
    entryLines 1 10 "hello world foo".toList = ["hello ".toList, "world foo".toList] ∧
    "hello ".toList ++ " ".toList ++ "world foo".toList ≠ "hello world foo".toList ∧
    "hello ".toList ++ "world foo".toList = "hello world foo".toList := by
  decide

/-- C3 (corrected).  Wrap round-trip: for every text and every column
width, the segments produced by `split_entry_text` are well-formed,
ordered and non-overlapping (`start ≤ stop` within a segment and
`stop < start` between consecutive ones), zero-length text yields zero
segments, and for text containing no newline/carriage-return characters
the plain concatenation of the segment views — with *no* delimiter
re-inserted, since a whitespace split leaves the space at the end of the
earlier segment — reconstructs the text exactly.  (With line breaks, a
break character standing at a segment start is dropped, so only the
break-free case round-trips verbatim.) -/
theorem C3_wrap_roundtrip (cw vw : Nat) (text : List Char) :
    (∀ s ∈ split_entry_text cw vw text, s.start ≤ s.stop) ∧
    List.Chain' (fun a b => a.stop < b.start) (split_entry_text cw vw text) ∧
    split_entry_text cw vw ([] : List Char) = [] ∧
    ((∀ c ∈ text, isBreakChar c = false) → (entryLines cw vw text).flatten = text) := by
  obtain ⟨-, h1, h2, h3⟩ := split_entry_text_spec cw vw text
  exact ⟨h1, h2, rfl, h3⟩

/-- Witness for C3 at the spec's own wrap scenario. -/
theorem C3_witness :
    (entryLines 1 10 "hello world foo".toList).flatten = "hello world foo".toList :=
  (C3_wrap_roundtrip 1 10 "hello world foo".toList).2.2.2 (by decide)

/-- Counterexample to C4 as stated.  Text `" abcd"` at char width 1 in
a 3-pixel column: the whitespace at index 0 is seen (the scan sets
`delim_idx = 0`, colliding with the "none seen" sentinel), yet when the
width is reached at index 2 the code hard-breaks there — the first
emitted segment is `[0, 2]` (`" ab"`), containing the whitespace rather
than being closed at it with the space consumed.  The claim's rule would
emit `[1, 3]` and `[4, 4]` instead. -/
theorem C4_counterexample :
    " abcd".toList[0]? = some ' ' ∧
    split_entry_text 1 3 " abcd".toList = [⟨0, 2⟩, ⟨3, 4⟩] ∧
    entryLines 1 3 " abcd".toList = [" ab".toList, "cd".toList] ∧
    ([⟨0, 2⟩, ⟨3, 4⟩] : List Seg) ≠ [⟨1, 3⟩, ⟨4, 4⟩] := by
  decide

/-- C4 (corrected).  Word-boundary wrap rule, as the code implements it:
when the scan reaches a non-whitespace, non-break character whose
position makes `(curr - start + 1) * char_width` reach the column
width — the width test is only ever applied to such characters — then
(i) if `delim_idx ≠ 0`, i.e. a whitespace was recorded at a *positive*
index since the segment start, the segment is closed at that whitespace,
which is retained as the segment's last character (the scan verifiably
recorded a whitespace of the text there, inside the current segment),
the scan resumes after it and the delimiter resets; (ii) if
`delim_idx = 0` — no whitespace seen, or the only whitespace sits at
text index 0, where the sentinel swallows it — the text hard-breaks at
the current character, which is retained, and the scan resumes after
it. -/
theorem C4_word_boundary (cw vw : Nat) (pre : List Char) (ch : Char)
    (hbr : isBreakChar ch = false) (hsp : isSpaceChar ch = false)
    (hwidth : vw ≤ ((splitScan cw vw pre).curr - (splitScan cw vw pre).start + 1) * cw) :
    ((splitScan cw vw pre).delim ≠ 0 →
      (splitScan cw vw (pre ++ [ch])).segs =
        (splitScan cw vw pre).segs ++
          [⟨(splitScan cw vw pre).start, (splitScan cw vw pre).delim⟩] ∧
      (splitScan cw vw (pre ++ [ch])).start = (splitScan cw vw pre).delim + 1 ∧
      (splitScan cw vw (pre ++ [ch])).delim = 0 ∧
      (splitScan cw vw pre).start ≤ (splitScan cw vw pre).delim ∧
      (∃ c, pre[(splitScan cw vw pre).delim]? = some c ∧ isSpaceChar c = true)) ∧
    ((splitScan cw vw pre).delim = 0 →
      (splitScan cw vw (pre ++ [ch])).segs =
        (splitScan cw vw pre).segs ++
          [⟨(splitScan cw vw pre).start, (splitScan cw vw pre).curr⟩] ∧
      (splitScan cw vw (pre ++ [ch])).start = (splitScan cw vw pre).curr + 1) := by
  have hstep : splitScan cw vw (pre ++ [ch]) = splitStep cw vw (splitScan cw vw pre) ch := by
    unfold splitScan
    rw [List.foldl_append]
    rfl
  obtain ⟨⟨-, -, h3, -, -, -⟩, -, -⟩ := splitScan_spec cw vw pre
  constructor
  · intro hd
    rcases h3 with h0 | ⟨hda, -, hc⟩
    · exact absurd h0 hd
    rw [hstep]
    unfold splitStep
    rw [if_neg (by simp [hbr]), if_neg (by simp [hsp]), if_pos hwidth, if_pos hd]
    exact ⟨rfl, rfl, rfl, hda, hc⟩
  · intro hd
    rw [hstep]
    unfold splitStep
    rw [if_neg (by simp [hbr]), if_neg (by simp [hsp]), if_pos hwidth, if_neg (by simp [hd])]
    exact ⟨rfl, rfl⟩

/-- Witness for C4: both wrap branches at concrete scans.  After
`"ab cd"` (char width 1, column width 6) the next character triggers a
word-boundary wrap at the recorded whitespace, index 2; after `"abc"`
(column width 4) no whitespace was recorded and the next character
hard-breaks at index 3. -/
theorem C4_witness :
    (splitScan 1 6 ("ab cd".toList ++ ['e'])).segs = [⟨0, 2⟩] ∧
    (splitScan 1 6 ("ab cd".toList ++ ['e'])).start = 3 ∧
    (splitScan 1 4 ("abc".toList ++ ['d'])).segs = [⟨0, 3⟩] ∧
    (splitScan 1 4 ("abc".toList ++ ['d'])).start = 4 := by
  have h1 := (C4_word_boundary 1 6 "ab cd".toList 'e' (by decide) (by decide) (by decide)).1
    (by decide)
  have h2 := (C4_word_boundary 1 4 "abc".toList 'd' (by decide) (by decide) (by decide)).2
    (by decide)
  exact ⟨h1.1.trans (by decide), h1.2.1.trans (by decide),
    h2.1.trans (by decide), h2.2.trans (by decide)⟩

end SDLConsole
